import Mathlib

/-!
Shallow embedding of `modules/hybrid_search.py` (class `HybridSearchEngine`).

Python floats are modelled as rationals (`ℚ`); Python's stable `sorted` and
numpy's ascending `argsort` are modelled with the stable `List.insertionSort`;
Python dicts (insertion-ordered) are modelled as association lists.  The two
external backends the module calls — `rank_bm25.BM25Okapi.get_scores` and
`vector_store.query_similar_chunks` — are third-party code outside this
repository and are passed in as explicit function parameters; every theorem
below quantifies over them.
-/

namespace HybridSearch

/-- Python's `str.lower()` (ASCII case fold, per the spec's Tokenizer contract). -/
def toLowerStr (s : String) : String := String.mk (s.toList.map Char.toLower)

/-- A word character of the `\b\w+\b` tokenizing regex (`re.findall`). -/
def isWordChar (c : Char) : Bool := c.isAlphanum || c == '_'

/-- Maximal runs of word characters of a character list (`re.findall(r'\b\w+\b', ·)`).
`cur` is the (reversed) run currently being read. -/
def wordRuns (cur : List Char) : List Char → List (List Char)
  | [] => if cur.isEmpty then [] else [cur.reverse]
  | c :: rest =>
    if isWordChar c then wordRuns (c :: cur) rest
    else if cur.isEmpty then wordRuns [] rest
    else cur.reverse :: wordRuns [] rest

/-- Embeds `HybridSearchEngine._tokenize`: lower-case, split on word boundaries, and
keep only tokens of length `> 2`. -/
def _tokenize (text : String) : List String :=
  ((wordRuns [] (toLowerStr text).toList).map fun cs => String.mk cs).filter fun t => 2 < t.length

/-- The `search_weights` dict `{"semantic": _, "keyword": _}`. -/
structure SearchWeights where
  semantic : ℚ
  keyword : ℚ
deriving DecidableEq, Repr

/-- The dict returned by `analyze_query` / `_simple_query_analysis`. -/
structure QueryAnalysis where
  intent : String
  keywords : List String
  search_weights : SearchWeights
  query_type : String
deriving DecidableEq, Repr

/-- Python's substring test `sub in hay` on character lists. -/
def charsContain (sub : List Char) : List Char → Bool
  | [] => sub.isEmpty
  | c :: rest => sub.isPrefixOf (c :: rest) || charsContain sub rest

/-- Python's substring test `sub in hay` on strings. -/
def strContains (hay sub : String) : Bool := charsContain sub.toList hay.toList

/-- Embeds `HybridSearchEngine._simple_query_analysis`: the deterministic fallback
query analysis. -/
def _simple_query_analysis (query : String) : QueryAnalysis :=
  let keywords := _tokenize query
  let p :=
    if strContains (toLowerStr query) "what" || strContains (toLowerStr query) "define" ||
        strContains (toLowerStr query) "definition" then
      ("definition", SearchWeights.mk (6/10) (4/10))
    else if strContains (toLowerStr query) "how" || strContains (toLowerStr query) "process" ||
        strContains (toLowerStr query) "steps" then
      ("how_to", SearchWeights.mk (8/10) (2/10))
    else
      ("factual", SearchWeights.mk (7/10) (3/10))
  { intent := p.1, keywords := keywords, search_weights := p.2,
    query_type := if keywords.length ≤ 3 then "specific" else "general" }

/-- A result dict of `bm25_search` / `vector_search`:
`{"document", "document_id", "score", "search_type"}`. -/
structure LexResult where
  document : String
  document_id : String
  score : ℚ
  search_type : String
deriving DecidableEq, Repr

/-- The state of a `HybridSearchEngine` instance: `bm25_index` is `none` until
`build_index` is called (Python `None`), afterwards it holds the tokenized
corpus handed to `BM25Okapi`.  (The auxiliary TF-IDF matrix built alongside is
never read by any search path and is omitted.) -/
structure HybridSearchEngine where
  bm25_index : Option (List (List String))
  documents : List String
  document_ids : List String
deriving DecidableEq, Repr

/-- Embeds `HybridSearchEngine.__init__`. -/
def HybridSearchEngine.init : HybridSearchEngine :=
  { bm25_index := none, documents := [], document_ids := [] }

/-- The default ids `[f"doc_{i}" for i in range(len(documents))]`. -/
def defaultIds (n : Nat) : List String := (List.range n).map fun i => "doc_" ++ toString i

/-- Embeds `HybridSearchEngine.build_index`.  Note Python's `document_ids or [...]`:
a `None` **or empty** id list falls back to the generated default ids. -/
def HybridSearchEngine.build_index (_e : HybridSearchEngine) (documents : List String)
    (document_ids : Option (List String)) : HybridSearchEngine :=
  let ids :=
    match document_ids with
    | some ids => if ids.isEmpty then defaultIds documents.length else ids
    | none => defaultIds documents.length
  { bm25_index := some (documents.map _tokenize),
    documents := documents,
    document_ids := ids }

/-- Embeds `np.argsort(scores)`: indices sorted ascending by score, ties kept in
index order (stable). -/
def argsortAsc (scores : List ℚ) : List Nat :=
  List.insertionSort (fun i j => scores.getD i 0 ≤ scores.getD j 0) (List.range scores.length)

/-- Embeds `np.argsort(scores)[::-1]`. -/
def argsortDesc (scores : List ℚ) : List Nat := (argsortAsc scores).reverse

/-- Embeds `HybridSearchEngine.bm25_search`.  `get_scores` stands for the external
`BM25Okapi.get_scores` of the index built by `build_index`. -/
def HybridSearchEngine.bm25_search (e : HybridSearchEngine)
    (get_scores : List (List String) → List String → List ℚ)
    (query : String) (top_k : Nat) : List LexResult :=
  match e.bm25_index with
  | none => []
  | some idx =>
    let tokenized_query := _tokenize query
    let scores := get_scores idx tokenized_query
    let top_indices := (argsortDesc scores).take top_k
    top_indices.filterMap fun i =>
      if 0 < scores.getD i 0 then
        some { document := e.documents.getD i "", document_id := e.document_ids.getD i "",
               score := scores.getD i 0, search_type := "keyword" }
      else none

/-- A result of the external `vector_store.query_similar_chunks`:
`{"document", "metadata": {"filename"}, "distance"}`. -/
structure ChunkResult where
  document : String
  filename : String
  distance : ℚ
deriving DecidableEq, Repr

/-- Embeds `HybridSearchEngine.vector_search`.  `query_similar_chunks` stands for the
external vector store query. -/
def HybridSearchEngine.vector_search
    (query_similar_chunks : String → Nat → Option String → List ChunkResult)
    (query : String) (top_k : Nat) (filename : Option String) : List LexResult :=
  (query_similar_chunks query top_k filename).map fun r =>
    { document := r.document, document_id := r.filename,
      score := 1 - r.distance, search_type := "semantic" }

/-- The per-document record held in the `doc_scores` dict of `_combine_results`. -/
structure DocScore where
  document : String
  bm25_score : ℚ
  vector_score : ℚ
  combined_score : ℚ
deriving DecidableEq, Repr

/-- The `doc_scores` dict: a Python dict is insertion-ordered, modelled as an
association list (new keys are appended at the end). -/
abbrev ScoreMap := List (String × DocScore)

/-- Python's `doc_id in doc_scores` membership test. -/
def hasKey (m : ScoreMap) (d : String) : Bool := (m.find? fun p => p.1 == d).isSome

/-- One step of the BM25 pass of `_combine_results`: insert the result under
its id unless that id is already present. -/
def insertLex (m : ScoreMap) (r : LexResult) : ScoreMap :=
  if hasKey m r.document_id then m
  else m ++ [(r.document_id,
    { document := r.document, bm25_score := r.score, vector_score := 0, combined_score := 0 })]

/-- One step of the vector pass of `_combine_results`: insert under a new id,
or overwrite only the `vector_score` field of an existing entry. -/
def updateVec (m : ScoreMap) (r : LexResult) : ScoreMap :=
  if hasKey m r.document_id then
    m.map fun p =>
      if p.1 == r.document_id then (p.1, { p.2 with vector_score := r.score }) else p
  else m ++ [(r.document_id,
    { document := r.document, bm25_score := 0, vector_score := r.score, combined_score := 0 })]

/-- The combination formula of `_combine_results`:
`bm25_score * weights["keyword"] + vector_score * weights["semantic"]`. -/
def combinedScore (weights : SearchWeights) (bm25_score vector_score : ℚ) : ℚ :=
  bm25_score * weights.keyword + vector_score * weights.semantic

/-- A final result dict of `_combine_results` / `hybrid_search`. -/
structure HybridResult where
  document : String
  document_id : String
  combined_score : ℚ
  bm25_score : ℚ
  vector_score : ℚ
  search_type : String
deriving DecidableEq, Repr

/-- Embeds `HybridSearchEngine._combine_results`: build the `doc_scores` dict from
both result lists, fill in combined scores, sort descending by combined score
(Python's `sorted` is stable), truncate to `top_k`, format. -/
def _combine_results (bm25_results vector_results : List LexResult)
    (weights : SearchWeights) (top_k : Nat) : List HybridResult :=
  let doc_scores := vector_results.foldl updateVec (bm25_results.foldl insertLex [])
  let scored := doc_scores.map fun p =>
    (p.1, { p.2 with combined_score := combinedScore weights p.2.bm25_score p.2.vector_score })
  let sorted_results :=
    (List.insertionSort (fun a b => b.2.combined_score ≤ a.2.combined_score) scored).take top_k
  sorted_results.map fun p =>
    { document := p.2.document, document_id := p.1, combined_score := p.2.combined_score,
      bm25_score := p.2.bm25_score, vector_score := p.2.vector_score, search_type := "hybrid" }

/-- Embeds `HybridSearchEngine.analyze_query`: the LLM path is external; `llm` is
`some analysis` when an API key is configured and the call succeeds and
parses, `none` otherwise (then the deterministic fallback runs). -/
def HybridSearchEngine.analyze_query (llm : Option QueryAnalysis) (query : String) :
    QueryAnalysis :=
  match llm with
  | some analysis => analysis
  | none => _simple_query_analysis query

/-- Embeds `HybridSearchEngine.hybrid_search`: analyze, run both sub-searches with
`2 * top_k`, fuse with the analysis weights, truncate to `top_k`. -/
def HybridSearchEngine.hybrid_search (e : HybridSearchEngine)
    (llm : Option QueryAnalysis)
    (get_scores : List (List String) → List String → List ℚ)
    (query_similar_chunks : String → Nat → Option String → List ChunkResult)
    (query : String) (top_k : Nat) (filename : Option String) : List HybridResult :=
  let analysis := HybridSearchEngine.analyze_query llm query
  let weights := analysis.search_weights
  let bm25_results := e.bm25_search get_scores query (top_k * 2)
  let vector_results :=
    HybridSearchEngine.vector_search query_similar_chunks query (top_k * 2) filename
  _combine_results bm25_results vector_results weights top_k

/-! ## Specification helpers and lemmas about the `doc_scores` construction -/

/-- Dict lookup on the association-list model (first entry with the key). -/
def lookupDoc (m : ScoreMap) (d : String) : Option DocScore :=
  (m.find? fun p => p.1 == d).map Prod.snd

/-- The keys of the dict, in insertion order. -/
def keysOf (m : ScoreMap) : List String := m.map Prod.fst

/-- The score of the last result in `vec` whose `document_id` is `d`
(`dflt` when there is none): the value the vector pass of `_combine_results`
leaves in the `vector_score` field. -/
def lastVecScore (d : String) (vec : List LexResult) (dflt : ℚ) : ℚ :=
  vec.foldl (fun acc r => if r.document_id == d then r.score else acc) dflt

theorem hasKey_eq_isSome (m : ScoreMap) (d : String) :
    hasKey m d = (lookupDoc m d).isSome := by
  simp [hasKey, lookupDoc]

theorem lookupDoc_append_single (m : ScoreMap) (x : String × DocScore) (d : String) :
    lookupDoc (m ++ [x]) d =
      (lookupDoc m d).or (if x.1 == d then some x.2 else none) := by
  simp only [lookupDoc, List.find?_append]
  cases h : m.find? fun p => p.1 == d with
  | none => cases hx : (x.1 == d) <;> simp [List.find?_cons, hx, Option.none_or, Option.or]
  | some p => simp [Option.or]

theorem lookupDoc_insertLex (m : ScoreMap) (r : LexResult) (d : String) :
    lookupDoc (insertLex m r) d =
      if r.document_id = d then
        match lookupDoc m d with
        | some s => some s
        | none => some ⟨r.document, r.score, 0, 0⟩
      else lookupDoc m d := by
  rw [insertLex]
  by_cases hk : hasKey m r.document_id = true
  · rw [if_pos hk]
    by_cases hd : r.document_id = d
    · subst hd
      rw [hasKey_eq_isSome] at hk
      cases h : lookupDoc m r.document_id with
      | none => rw [h] at hk; simp at hk
      | some s => simp
    · simp [hd]
  · rw [if_neg hk]
    rw [lookupDoc_append_single]
    by_cases hd : r.document_id = d
    · subst hd
      rw [hasKey_eq_isSome] at hk
      cases h : lookupDoc m r.document_id with
      | none => simp [Option.none_or]
      | some s => rw [h] at hk; simp at hk
    · have hbeq : (r.document_id == d) = false := by simp [hd]
      rw [hbeq, if_neg hd]
      cases lookupDoc m d <;> simp [Option.or]

theorem lookupDoc_updateVec (m : ScoreMap) (r : LexResult) (d : String) :
    lookupDoc (updateVec m r) d =
      if r.document_id = d then
        match lookupDoc m d with
        | some s => some { s with vector_score := r.score }
        | none => some ⟨r.document, 0, r.score, 0⟩
      else lookupDoc m d := by
  rw [updateVec]
  by_cases hk : hasKey m r.document_id = true
  · rw [if_pos hk]
    have hfind : List.find? (fun p => p.1 == d)
        (m.map fun p =>
          if p.1 == r.document_id then (p.1, { p.2 with vector_score := r.score }) else p) =
        Option.map
          (fun p => if p.1 == r.document_id then (p.1, { p.2 with vector_score := r.score }) else p)
          (m.find? fun p => p.1 == d) := by
      have hpred : ((fun p : String × DocScore => p.1 == d) ∘ fun p =>
          if p.1 == r.document_id then (p.1, { p.2 with vector_score := r.score }) else p) =
          fun p : String × DocScore => p.1 == d := by
        funext p
        by_cases hp : p.1 = r.document_id <;> simp [Function.comp, hp]
      rw [List.find?_map, hpred]
    rw [lookupDoc, hfind]
    cases h : m.find? fun p => p.1 == d with
    | none =>
      by_cases hd : r.document_id = d
      · subst hd; rw [hasKey, h] at hk; simp at hk
      · simp [lookupDoc, h, hd]
    | some p =>
      have hp1 : p.1 = d := by simpa using List.find?_some h
      by_cases hd : r.document_id = d
      · subst hd
        simp [lookupDoc, h, hp1]
      · have hne : ¬p.1 = r.document_id := by
          rw [hp1]; intro hc; exact hd hc.symm
        simp [lookupDoc, h, hd, hne]
  · rw [if_neg hk]
    rw [lookupDoc_append_single]
    by_cases hd : r.document_id = d
    · subst hd
      rw [hasKey_eq_isSome] at hk
      cases h : lookupDoc m r.document_id with
      | none => simp [Option.none_or]
      | some s => rw [h] at hk; simp at hk
    · have hbeq : (r.document_id == d) = false := by simp [hd]
      rw [hbeq, if_neg hd]
      cases lookupDoc m d <;> simp [Option.or]

theorem lookup_foldl_insertLex (bm : List LexResult) : ∀ (m : ScoreMap) (d : String),
    lookupDoc (bm.foldl insertLex m) d =
      (lookupDoc m d).or ((bm.find? fun r => r.document_id == d).map
        fun r => ⟨r.document, r.score, 0, 0⟩) := by
  induction bm with
  | nil =>
    intro m d
    cases h : lookupDoc m d <;> simp [h, Option.or]
  | cons r rest ih =>
    intro m d
    rw [List.foldl_cons, ih, lookupDoc_insertLex]
    by_cases hd : r.document_id = d
    · have hbeq : (r.document_id == d) = true := by simp [hd]
      cases h : lookupDoc m d <;>
        simp [hd, List.find?_cons, hbeq, h, Option.or]
    · have hbeq : (r.document_id == d) = false := by simp [hd]
      simp [hd, List.find?_cons, hbeq]

theorem lookup_foldl_updateVec (vec : List LexResult) : ∀ (m : ScoreMap) (d : String),
    lookupDoc (vec.foldl updateVec m) d =
      match lookupDoc m d with
      | some s => some { s with vector_score := lastVecScore d vec s.vector_score }
      | none =>
        match vec.find? fun r => r.document_id == d with
        | some v => some ⟨v.document, 0, lastVecScore d vec v.score, 0⟩
        | none => none := by
  induction vec with
  | nil =>
    intro m d
    cases h : lookupDoc m d with
    | none => simp [h]
    | some s => exact h
  | cons r rest ih =>
    intro m d
    rw [List.foldl_cons, ih, lookupDoc_updateVec]
    by_cases hd : r.document_id = d
    · have hbeq : (r.document_id == d) = true := by simp [hd]
      cases h : lookupDoc m d with
      | none => simp [hd, List.find?_cons, hbeq, lastVecScore, List.foldl_cons]
      | some s => simp [hd, List.find?_cons, hbeq, lastVecScore, List.foldl_cons]
    · have hbeq : (r.document_id == d) = false := by simp [hd]
      cases h : lookupDoc m d with
      | none => simp [hd, List.find?_cons, hbeq, lastVecScore, List.foldl_cons]
      | some s => simp [hd, List.find?_cons, hbeq, lastVecScore, List.foldl_cons]

/-- The content of the fully built `doc_scores` dict, per key: a lexical match
contributes document text and `bm25_score` (first occurrence), the vector pass
contributes the last matching semantic score (or the text, for ids unseen by
the lexical pass). -/
theorem lookup_docScores (bm vec : List LexResult) (d : String) :
    lookupDoc (vec.foldl updateVec (bm.foldl insertLex [])) d =
      match bm.find? fun r => r.document_id == d with
      | some l => some ⟨l.document, l.score, lastVecScore d vec 0, 0⟩
      | none =>
        match vec.find? fun r => r.document_id == d with
        | some v => some ⟨v.document, 0, lastVecScore d vec v.score, 0⟩
        | none => none := by
  rw [lookup_foldl_updateVec, lookup_foldl_insertLex]
  have hnil : lookupDoc [] d = none := rfl
  rw [hnil, Option.none_or]
  cases h : bm.find? fun r => r.document_id == d with
  | none => simp
  | some l => simp

theorem hasKey_iff (m : ScoreMap) (d : String) :
    hasKey m d = true ↔ d ∈ keysOf m := by
  rw [hasKey, List.find?_isSome]
  constructor
  · rintro ⟨p, hp, hpd⟩
    have hpd1 : p.1 = d := by simpa using hpd
    exact hpd1 ▸ List.mem_map_of_mem Prod.fst hp
  · intro hd
    rcases List.mem_map.mp hd with ⟨p, hp, hpd⟩
    exact ⟨p, hp, by simp [hpd]⟩

theorem nodup_keysOf_insertLex (m : ScoreMap) (r : LexResult) (h : (keysOf m).Nodup) :
    (keysOf (insertLex m r)).Nodup := by
  rw [insertLex]
  by_cases hk : hasKey m r.document_id = true
  · rw [if_pos hk]; exact h
  · rw [if_neg hk]
    have hnotin : r.document_id ∉ keysOf m := fun hmem => hk ((hasKey_iff m r.document_id).mpr hmem)
    rw [keysOf, List.map_append, List.nodup_append]
    refine ⟨h, by simp, ?_⟩
    intro x hx hx2
    simp at hx2
    exact hnotin (hx2 ▸ hx)

theorem nodup_keysOf_updateVec (m : ScoreMap) (r : LexResult) (h : (keysOf m).Nodup) :
    (keysOf (updateVec m r)).Nodup := by
  rw [updateVec]
  by_cases hk : hasKey m r.document_id = true
  · rw [if_pos hk]
    have hkeys : keysOf (m.map fun p =>
        if p.1 == r.document_id then (p.1, { p.2 with vector_score := r.score }) else p) =
        keysOf m := by
      rw [keysOf, keysOf, List.map_map]
      apply List.map_congr_left
      intro p _
      by_cases hp : p.1 = r.document_id <;> simp [Function.comp, hp]
    rw [hkeys]; exact h
  · rw [if_neg hk]
    have hnotin : r.document_id ∉ keysOf m := fun hmem => hk ((hasKey_iff m r.document_id).mpr hmem)
    rw [keysOf, List.map_append, List.nodup_append]
    refine ⟨h, by simp, ?_⟩
    intro x hx hx2
    simp at hx2
    exact hnotin (hx2 ▸ hx)

/-- The keys of the fully built `doc_scores` dict are distinct. -/
theorem nodup_keysOf_docScores (bm vec : List LexResult) :
    (keysOf (vec.foldl updateVec (bm.foldl insertLex []))).Nodup := by
  have h1 : ∀ (m : ScoreMap), (keysOf m).Nodup → (keysOf (bm.foldl insertLex m)).Nodup := by
    induction bm with
    | nil => intro m h; exact h
    | cons r rest ih =>
      intro m h
      rw [List.foldl_cons]
      exact ih _ (nodup_keysOf_insertLex m r h)
  have h2 : ∀ (m : ScoreMap), (keysOf m).Nodup → (keysOf (vec.foldl updateVec m)).Nodup := by
    induction vec with
    | nil => intro m h; exact h
    | cons r rest ih =>
      intro m h
      rw [List.foldl_cons]
      exact ih _ (nodup_keysOf_updateVec m r h)
  exact h2 _ (h1 [] (by simp [keysOf]))

theorem lookupDoc_of_mem : ∀ {m : ScoreMap}, (keysOf m).Nodup →
    ∀ {p : String × DocScore}, p ∈ m → lookupDoc m p.1 = some p.2 := by
  intro m
  induction m with
  | nil => intro _ p hp; cases hp
  | cons q t ih =>
    intro hm p hp
    have hm2 : (q.1 :: keysOf t).Nodup := by
      rw [keysOf, List.map_cons] at hm
      exact hm
    have hcons := List.nodup_cons.mp hm2
    rcases List.mem_cons.mp hp with hq | ht
    · subst hq
      simp [lookupDoc, List.find?_cons]
    · have hne : (q.1 == p.1) = false := by
        simp only [beq_eq_false_iff_ne, ne_eq]
        intro hc
        exact hcons.1 (hc ▸ List.mem_map_of_mem Prod.fst ht)
      have := ih hcons.2 ht
      simp only [lookupDoc, List.find?_cons, hne] at this ⊢
      exact this

/-- Every fused result corresponds exactly to its entry in the `doc_scores`
dict, with `combined_score` computed by the combination formula. -/
theorem mem_combine {bm vec : List LexResult} {w : SearchWeights} {k : Nat}
    {r : HybridResult} (hr : r ∈ _combine_results bm vec w k) :
    ∃ s, lookupDoc (vec.foldl updateVec (bm.foldl insertLex [])) r.document_id = some s ∧
      r.document = s.document ∧ r.bm25_score = s.bm25_score ∧
      r.vector_score = s.vector_score ∧
      r.combined_score = combinedScore w s.bm25_score s.vector_score ∧
      r.search_type = "hybrid" := by
  simp only [_combine_results] at hr
  rcases List.mem_map.mp hr with ⟨p, hp, rfl⟩
  have hp2 := List.mem_of_mem_take hp
  have hp3 := (List.mem_insertionSort _).mp hp2
  rcases List.mem_map.mp hp3 with ⟨q, hq, rfl⟩
  exact ⟨q.2, lookupDoc_of_mem (nodup_keysOf_docScores bm vec) hq, rfl, rfl, rfl, rfl, rfl⟩

/-- The sort-then-truncate step of `_combine_results` yields a list that is
non-increasing in `combined_score`. -/
theorem pairwise_sortTake (l : List (String × DocScore)) (k : Nat) :
    List.Pairwise (fun a b : String × DocScore => b.2.combined_score ≤ a.2.combined_score)
      ((List.insertionSort (fun a b => b.2.combined_score ≤ a.2.combined_score) l).take k) := by
  haveI : IsTotal (String × DocScore)
      (fun a b => b.2.combined_score ≤ a.2.combined_score) :=
    ⟨fun a b => le_total b.2.combined_score a.2.combined_score⟩
  haveI : IsTrans (String × DocScore)
      (fun a b => b.2.combined_score ≤ a.2.combined_score) :=
    ⟨fun _ _ _ hab hbc => le_trans hbc hab⟩
  exact (List.sorted_insertionSort _ l).sublist (List.take_sublist _ _)

/-- Hybrid results come out sorted by non-increasing `combined_score`. -/
theorem combine_pairwise (bm vec : List LexResult) (w : SearchWeights) (k : Nat) :
    List.Pairwise (fun a b : HybridResult => b.combined_score ≤ a.combined_score)
      (_combine_results bm vec w k) := by
  simp only [_combine_results]
  exact List.pairwise_map.mpr (pairwise_sortTake _ k)

/-- The index list the BM25 search walks is non-increasing in score. -/
theorem pairwise_argsortDesc (scores : List ℚ) :
    List.Pairwise (fun i j => scores.getD j 0 ≤ scores.getD i 0) (argsortDesc scores) := by
  rw [argsortDesc]
  apply List.pairwise_reverse.mpr
  haveI : IsTotal Nat (fun i j => scores.getD i 0 ≤ scores.getD j 0) :=
    ⟨fun a b => le_total (scores.getD a 0) (scores.getD b 0)⟩
  haveI : IsTrans Nat (fun i j => scores.getD i 0 ≤ scores.getD j 0) :=
    ⟨fun _ _ _ hab hbc => le_trans hab hbc⟩
  exact List.sorted_insertionSort _ _

/-- BM25 results come out sorted by non-increasing score. -/
theorem bm25_search_pairwise (e : HybridSearchEngine)
    (get_scores : List (List String) → List String → List ℚ) (q : String) (k : Nat) :
    List.Pairwise (fun a b : LexResult => b.score ≤ a.score)
      (e.bm25_search get_scores q k) := by
  cases hidx : e.bm25_index with
  | none => simp [HybridSearchEngine.bm25_search, hidx]
  | some idx =>
    simp only [HybridSearchEngine.bm25_search, hidx]
    apply List.Pairwise.filterMap
      (R := fun i j => (get_scores idx (_tokenize q)).getD j 0 ≤
        (get_scores idx (_tokenize q)).getD i 0)
    · intro a b hab x hx y hy
      rw [Option.mem_def] at hx hy
      split at hx
      · split at hy
        · rw [Option.some.injEq] at hx hy
          rw [← hx, ← hy]
          exact hab
        · exact Option.noConfusion hy
      · exact Option.noConfusion hx
    · exact (pairwise_argsortDesc _).sublist (List.take_sublist _ _)

theorem pair_sublist_range {i j n : Nat} (hij : i < j) (hjn : j < n) :
    List.Sublist [i, j] (List.range n) := by
  induction n with
  | zero => exact absurd hjn (Nat.not_lt_zero j)
  | succ m ih =>
    rw [List.range_succ]
    by_cases hj : j = m
    · subst hj
      exact List.Sublist.append (List.singleton_sublist.mpr (List.mem_range.mpr hij))
        (List.Sublist.refl [j])
    · exact (ih (by omega)).trans (List.sublist_append_left _ _)

/-- Two equal scores come out of `np.argsort(scores)[::-1]` in **reverse**
index order: the later document first. -/
theorem argsortDesc_tie {scores : List ℚ} {i j : Nat} (hij : i < j)
    (hjn : j < scores.length) (heq : scores.getD i 0 = scores.getD j 0) :
    List.Sublist [j, i] (argsortDesc scores) := by
  rw [argsortDesc, argsortAsc]
  have h1 := pair_sublist_range hij hjn
  have h2 : List.Pairwise (fun a b => scores.getD a 0 ≤ scores.getD b 0) [i, j] := by
    refine List.pairwise_cons.mpr ⟨?_, List.pairwise_singleton _ _⟩
    intro x hx
    rw [List.mem_singleton] at hx
    subst hx
    exact le_of_eq heq
  exact (List.sublist_insertionSort h2 h1).reverse

theorem find?_eq_some_of_nodup {l : List LexResult}
    (h : (l.map fun r => r.document_id).Nodup) {x : LexResult} (hx : x ∈ l)
    {d : String} (hd : x.document_id = d) :
    l.find? (fun r => r.document_id == d) = some x := by
  induction l with
  | nil => cases hx
  | cons a t ih =>
    rw [List.map_cons] at h
    have hcons := List.nodup_cons.mp h
    rcases List.mem_cons.mp hx with rfl | ht
    · have hb : (x.document_id == d) = true := by simp [hd]
      simp [List.find?_cons, hb]
    · have hb : (a.document_id == d) = false := by
        simp only [beq_eq_false_iff_ne, ne_eq]
        intro hc
        apply hcons.1
        rw [hc, ← hd]
        exact List.mem_map_of_mem _ ht
      simp only [List.find?_cons, hb]
      exact ih hcons.2 ht

theorem lastVecScore_no_match {d : String} {vec : List LexResult}
    (h : vec.find? (fun r => r.document_id == d) = none) (dflt : ℚ) :
    lastVecScore d vec dflt = dflt := by
  induction vec generalizing dflt with
  | nil => rfl
  | cons r t ih =>
    rw [List.find?_cons] at h
    cases hb : (r.document_id == d) with
    | true => rw [hb] at h; cases h
    | false =>
      rw [hb] at h
      simp only [lastVecScore, List.foldl_cons, hb]
      exact ih h dflt

theorem lastVecScore_irrel {d : String} {vec : List LexResult} {v : LexResult}
    (h : vec.find? (fun r => r.document_id == d) = some v) (a b : ℚ) :
    lastVecScore d vec a = lastVecScore d vec b := by
  induction vec with
  | nil => cases h
  | cons r t ih =>
    rw [List.find?_cons] at h
    cases hb : (r.document_id == d) with
    | true =>
      have hd2 : r.document_id = d := by simpa using hb
      simp [lastVecScore, List.foldl_cons, hd2]
    | false =>
      rw [hb] at h
      have hb2 : ¬((r.document_id == d) = true) := by rw [hb]; simp
      simp only [lastVecScore, List.foldl_cons]
      rw [if_neg hb2, if_neg hb2]
      exact ih h

theorem lastVecScore_of_nodup {vec : List LexResult}
    (h : (vec.map fun r => r.document_id).Nodup) {v : LexResult} (hv : v ∈ vec)
    {d : String} (hd : v.document_id = d) (dflt : ℚ) :
    lastVecScore d vec dflt = v.score := by
  induction vec with
  | nil => cases hv
  | cons r t ih =>
    rw [List.map_cons] at h
    have hcons := List.nodup_cons.mp h
    rcases List.mem_cons.mp hv with rfl | ht
    · have hb : (v.document_id == d) = true := by simp [hd]
      have hnone : t.find? (fun r => r.document_id == d) = none := by
        rw [List.find?_eq_none]
        intro x hx hpx
        apply hcons.1
        have hx1 : x.document_id = d := by simpa using hpx
        rw [hd, ← hx1]
        exact List.mem_map_of_mem _ hx
      simp only [lastVecScore, List.foldl_cons, hb]
      exact lastVecScore_no_match hnone v.score
    · have hb : (r.document_id == d) = false := by
        simp only [beq_eq_false_iff_ne, ne_eq]
        intro hc
        apply hcons.1
        rw [hc, ← hd]
        exact List.mem_map_of_mem _ ht
      simp only [lastVecScore, List.foldl_cons, hb]
      exact ih hcons.2 ht

theorem nodup_map_fst_sortTake (l : List (String × DocScore)) (k : Nat)
    (h : (l.map Prod.fst).Nodup) :
    (((List.insertionSort (fun a b => b.2.combined_score ≤ a.2.combined_score) l).take k).map
      Prod.fst).Nodup := by
  have hperm := List.perm_insertionSort
    (fun a b : String × DocScore => b.2.combined_score ≤ a.2.combined_score) l
  have hn := ((hperm.map Prod.fst).nodup_iff).mpr h
  exact hn.sublist ((List.take_sublist _ _).map Prod.fst)

/-- Every `document_id` occurs at most once in the fused output. -/
theorem combine_ids_nodup (bm vec : List LexResult) (w : SearchWeights) (k : Nat) :
    ((_combine_results bm vec w k).map fun r => r.document_id).Nodup := by
  simp only [_combine_results]
  rw [List.map_map]
  have hkeys : ((List.map (fun p : String × DocScore =>
      (p.1, { p.2 with combined_score := combinedScore w p.2.bm25_score p.2.vector_score }))
      (vec.foldl updateVec (bm.foldl insertLex []))).map Prod.fst).Nodup := by
    rw [List.map_map]
    exact nodup_keysOf_docScores bm vec
  exact nodup_map_fst_sortTake _ k hkeys

/-! ## Claim theorems -/

/-- C1: every entry produced by fusion has
`combined_score = lexical_score * weights.keyword + semantic_score * weights.semantic`,
and combining `lexical_results = [a: 2.0]` with `semantic_results = [b: 0.9]`
under weights `{keyword: 0.4, semantic: 0.6}` yields `a` with combined score
`0.8` ranked before `b` with combined score `0.54`. -/
theorem c1_combined_score_formula :
    (∀ (bm vec : List LexResult) (w : SearchWeights) (k : Nat) (r : HybridResult),
      r ∈ _combine_results bm vec w k →
      r.combined_score = r.bm25_score * w.keyword + r.vector_score * w.semantic) ∧
    _combine_results [⟨"doc a", "a", 2, "keyword"⟩] [⟨"doc b", "b", 9/10, "semantic"⟩]
      ⟨6/10, 4/10⟩ 10 =
      [⟨"doc a", "a", 8/10, 2, 0, "hybrid"⟩, ⟨"doc b", "b", 54/100, 0, 9/10, "hybrid"⟩] := by
  constructor
  · intro bm vec w k r hr
    rcases mem_combine hr with ⟨s, _, _, hb, hv, hc, _⟩
    rw [hc, hb, hv]
    rfl
  · norm_num [_combine_results, insertLex, updateVec, hasKey, combinedScore,
      List.insertionSort, List.orderedInsert]

/-- Witness for C1: the formula instantiated on a concrete fused entry. -/
theorem c1_combined_score_formula_witness :
    (⟨"da", "a", 2 * 1 + 0 * 1, 2, 0, "hybrid"⟩ : HybridResult).combined_score =
      (⟨"da", "a", 2 * 1 + 0 * 1, 2, 0, "hybrid"⟩ : HybridResult).bm25_score * (1 : ℚ) +
      (⟨"da", "a", 2 * 1 + 0 * 1, 2, 0, "hybrid"⟩ : HybridResult).vector_score * 1 :=
  c1_combined_score_formula.1 [⟨"da", "a", 2, "keyword"⟩] [] ⟨1, 1⟩ 5 _
    (by norm_num [_combine_results, insertLex, updateVec, hasKey, combinedScore,
      List.insertionSort, List.orderedInsert])

/-- C3: the fallback analyzer classifies by substring heuristics on the
lowercased query ("what"/"define"/"definition" → definition with weights
semantic 0.6 / keyword 0.4; else "how"/"process"/"steps" → how_to with
0.8/0.2; else factual with 0.7/0.3), `query_type` is "specific" iff at most 3
keywords come out of tokenization, and the two weights always sum to 1. -/
theorem c3_fallback_analysis (query : String) :
    ((_simple_query_analysis query).intent, (_simple_query_analysis query).search_weights) =
      (if (strContains (toLowerStr query) "what" || strContains (toLowerStr query) "define" ||
          strContains (toLowerStr query) "definition") = true then
        ("definition", SearchWeights.mk (6/10) (4/10))
      else if (strContains (toLowerStr query) "how" || strContains (toLowerStr query) "process" ||
          strContains (toLowerStr query) "steps") = true then
        ("how_to", SearchWeights.mk (8/10) (2/10))
      else ("factual", SearchWeights.mk (7/10) (3/10))) ∧
    (_simple_query_analysis query).keywords = _tokenize query ∧
    ((_simple_query_analysis query).query_type = "specific" ↔
      (_tokenize query).length ≤ 3) ∧
    (_simple_query_analysis query).search_weights.semantic +
      (_simple_query_analysis query).search_weights.keyword = 1 := by
  refine ⟨?_, rfl, ?_, ?_⟩
  · by_cases h1 : (strContains (toLowerStr query) "what" ||
        strContains (toLowerStr query) "define" ||
        strContains (toLowerStr query) "definition") = true
    · simp [_simple_query_analysis, h1]
    · by_cases h2 : (strContains (toLowerStr query) "how" ||
          strContains (toLowerStr query) "process" ||
          strContains (toLowerStr query) "steps") = true
      · simp [_simple_query_analysis, h1, h2]
      · simp [_simple_query_analysis, h1, h2]
  · by_cases hl : (_tokenize query).length ≤ 3
    · simp [_simple_query_analysis, hl]
    · simp [_simple_query_analysis, hl]
  · by_cases h1 : (strContains (toLowerStr query) "what" ||
        strContains (toLowerStr query) "define" ||
        strContains (toLowerStr query) "definition") = true
    · simp [_simple_query_analysis, h1]
      norm_num
    · by_cases h2 : (strContains (toLowerStr query) "how" ||
          strContains (toLowerStr query) "process" ||
          strContains (toLowerStr query) "steps") = true
      · simp [_simple_query_analysis, h1, h2]
        norm_num
      · simp [_simple_query_analysis, h1, h2]
        norm_num

/-- C4: no result of the lexical search has non-positive score. -/
theorem c4_positive_scores (e : HybridSearchEngine)
    (get_scores : List (List String) → List String → List ℚ) (q : String) (k : Nat)
    (r : LexResult) (hr : r ∈ e.bm25_search get_scores q k) : 0 < r.score := by
  cases hidx : e.bm25_index with
  | none =>
    rw [HybridSearchEngine.bm25_search, hidx] at hr
    cases hr
  | some idx =>
    simp only [HybridSearchEngine.bm25_search, hidx] at hr
    rcases List.mem_filterMap.mp hr with ⟨i, _, hf⟩
    split at hf
    case isTrue h =>
      rw [Option.some.injEq] at hf
      rw [← hf]
      exact h
    case isFalse => exact Option.noConfusion hf

/-- Witness for C4: a concrete one-document search. -/
theorem c4_positive_scores_witness :
    0 < (⟨"alpha one", "d0", 1, "keyword"⟩ : LexResult).score :=
  c4_positive_scores (HybridSearchEngine.init.build_index ["alpha one"] (some ["d0"]))
    (fun _ _ => [1]) "alpha" 3 _ (by decide)

/-- C5 counterexample: with two documents of equal BM25 score, the output is
in **reverse** corpus order (`d1` before `d0`), not original corpus order as
the claim states. -/
theorem c5_tie_order_counterexample :
    ((HybridSearchEngine.init.build_index ["alpha one", "beta two"]
        (some ["d0", "d1"])).bm25_search (fun _ _ => [1, 1]) "alpha" 3).map
      (fun r => r.document_id) = ["d1", "d0"] ∧
    ¬(((HybridSearchEngine.init.build_index ["alpha one", "beta two"]
        (some ["d0", "d1"])).bm25_search (fun _ _ => [1, 1]) "alpha" 3).map
      (fun r => r.document_id) = ["d0", "d1"]) := by
  constructor
  · decide
  · decide

/-- C5 (amended): lexical search results are sorted non-increasing by BM25
score and the function is deterministic, but two documents with equal scores
appear in **reverse** corpus order (the ascending `argsort` is reversed
wholesale), not original corpus order. -/
theorem c5_sorted_ties_reversed :
    (∀ (e : HybridSearchEngine)
      (get_scores : List (List String) → List String → List ℚ) (q : String) (k : Nat),
      List.Pairwise (fun a b : LexResult => b.score ≤ a.score)
        (e.bm25_search get_scores q k)) ∧
    (∀ (scores : List ℚ) (i j : Nat), i < j → j < scores.length →
      scores.getD i 0 = scores.getD j 0 →
      List.Sublist [j, i] (argsortDesc scores)) :=
  ⟨bm25_search_pairwise, fun _ _ _ hij hjn heq => argsortDesc_tie hij hjn heq⟩

/-- Witness for C5 (amended): equal scores at indices 0 < 1 put index 1 first. -/
theorem c5_sorted_ties_reversed_witness :
    List.Sublist [1, 0] (argsortDesc [1, 1]) :=
  c5_sorted_ties_reversed.2 [1, 1] 0 1 (by decide) (by decide) (by decide)

/-- C6: with the index never built (fresh engine) or an empty corpus, both
`bm25_search` and `hybrid_search` return the empty sequence; no engine search
operation fails in the no-data state.  `hgs` states that the external BM25
scorer returns one score per indexed document (so none for an empty index);
the vector backend in the no-data state returns no chunks. -/
theorem c6_no_data_empty (llm : Option QueryAnalysis)
    (get_scores : List (List String) → List String → List ℚ)
    (q : String) (k : Nat) (fn : Option String) (ids : Option (List String))
    (hgs : ∀ tq, get_scores [] tq = []) :
    HybridSearchEngine.init.bm25_search get_scores q k = [] ∧
    HybridSearchEngine.init.hybrid_search llm get_scores (fun _ _ _ => []) q k fn = [] ∧
    (HybridSearchEngine.init.build_index [] ids).bm25_search get_scores q k = [] ∧
    (HybridSearchEngine.init.build_index [] ids).hybrid_search llm get_scores
      (fun _ _ _ => []) q k fn = [] := by
  refine ⟨rfl, ?_, ?_, ?_⟩
  · simp [HybridSearchEngine.hybrid_search, HybridSearchEngine.bm25_search,
      HybridSearchEngine.vector_search, HybridSearchEngine.init, _combine_results]
  · simp [HybridSearchEngine.bm25_search, HybridSearchEngine.build_index, hgs,
      argsortDesc, argsortAsc]
  · simp [HybridSearchEngine.hybrid_search, HybridSearchEngine.bm25_search,
      HybridSearchEngine.build_index, HybridSearchEngine.vector_search, hgs,
      argsortDesc, argsortAsc, _combine_results, insertLex, updateVec, hasKey]

/-- Witness for C6 with a concrete scorer that returns one score per document. -/
theorem c6_no_data_empty_witness :
    HybridSearchEngine.init.bm25_search (fun _ _ => []) "any query" 10 = [] ∧
    (HybridSearchEngine.init.build_index [] none).hybrid_search none (fun _ _ => [])
      (fun _ _ _ => []) "any query" 10 none = [] :=
  ⟨(c6_no_data_empty none (fun _ _ => []) "any query" 10 none none fun _ => rfl).1,
   (c6_no_data_empty none (fun _ _ => []) "any query" 10 none none fun _ => rfl).2.2.2⟩

/-- C7: the semantic adapter returns exactly `1 - distance` per backend result,
with no clamping: a distance above 1 yields a negative score. -/
theorem c7_semantic_score_conversion
    (query_similar_chunks : String → Nat → Option String → List ChunkResult)
    (q : String) (k : Nat) (fn : Option String) :
    (HybridSearchEngine.vector_search query_similar_chunks q k fn).length =
      (query_similar_chunks q k fn).length ∧
    (∀ i, i < (query_similar_chunks q k fn).length →
      ((HybridSearchEngine.vector_search query_similar_chunks q k fn).getD i
          ⟨"", "", 0, ""⟩).score =
        1 - ((query_similar_chunks q k fn).getD i ⟨"", "", 0⟩).distance) ∧
    (∀ i, i < (query_similar_chunks q k fn).length →
      1 < ((query_similar_chunks q k fn).getD i ⟨"", "", 0⟩).distance →
      ((HybridSearchEngine.vector_search query_similar_chunks q k fn).getD i
          ⟨"", "", 0, ""⟩).score < 0) := by
  have key : ∀ i, i < (query_similar_chunks q k fn).length →
      ((HybridSearchEngine.vector_search query_similar_chunks q k fn).getD i
          ⟨"", "", 0, ""⟩).score =
        1 - ((query_similar_chunks q k fn).getD i ⟨"", "", 0⟩).distance := by
    intro i hi
    rw [HybridSearchEngine.vector_search, List.getD_eq_getElem?_getD,
      List.getD_eq_getElem?_getD, List.getElem?_map, List.getElem?_eq_getElem hi]
    simp
  refine ⟨List.length_map _ _, key, ?_⟩
  intro i hi hd
  rw [key i hi]
  linarith

/-- Witness for C7: a backend distance of 2 yields score `-1 < 0`. -/
theorem c7_semantic_score_conversion_witness :
    ((HybridSearchEngine.vector_search (fun _ _ _ => [⟨"text", "file", 2⟩]) "q" 1
        none).getD 0 ⟨"", "", 0, ""⟩).score < 0 :=
  (c7_semantic_score_conversion (fun _ _ _ => [⟨"text", "file", 2⟩]) "q" 1 none).2.2 0
    (by decide) (by norm_num)

/-- C8: both searches return at most `top_k` results, and `top_k = 0` returns
the empty sequence. -/
theorem c8_topk_bound (e : HybridSearchEngine) (llm : Option QueryAnalysis)
    (get_scores : List (List String) → List String → List ℚ)
    (query_similar_chunks : String → Nat → Option String → List ChunkResult)
    (q : String) (k : Nat) (fn : Option String) :
    (e.bm25_search get_scores q k).length ≤ k ∧
    (e.hybrid_search llm get_scores query_similar_chunks q k fn).length ≤ k ∧
    e.bm25_search get_scores q 0 = [] ∧
    e.hybrid_search llm get_scores query_similar_chunks q 0 fn = [] := by
  have hbm : ∀ n, (e.bm25_search get_scores q n).length ≤ n := by
    intro n
    cases hidx : e.bm25_index with
    | none => simp [HybridSearchEngine.bm25_search, hidx]
    | some idx =>
      simp only [HybridSearchEngine.bm25_search, hidx]
      exact le_trans (List.length_filterMap_le _ _) (List.length_take_le n _)
  have hcomb : ∀ (bm vec : List LexResult) (w : SearchWeights) (n : Nat),
      (_combine_results bm vec w n).length ≤ n := by
    intro bm vec w n
    simp only [_combine_results]
    rw [List.length_map]
    exact List.length_take_le n _
  refine ⟨hbm k, hcomb _ _ _ k, ?_, ?_⟩
  · have h := hbm 0
    exact List.eq_nil_of_length_eq_zero (Nat.le_zero.mp h)
  · have h := hcomb (e.bm25_search get_scores q (0 * 2))
      (HybridSearchEngine.vector_search query_similar_chunks q (0 * 2) fn)
      (HybridSearchEngine.analyze_query llm q).search_weights 0
    exact List.eq_nil_of_length_eq_zero (Nat.le_zero.mp h)

/-- C9: the combination formula is strictly monotone in each constituent score
when the matching weight is positive, and the fused output is ordered so that
no entry is ranked below an entry with strictly smaller combined score. -/
theorem c9_fusion_monotone :
    (∀ (w : SearchWeights) (l l2 s : ℚ), 0 < w.keyword → l < l2 →
      combinedScore w l s < combinedScore w l2 s) ∧
    (∀ (w : SearchWeights) (l s s2 : ℚ), 0 < w.semantic → s < s2 →
      combinedScore w l s < combinedScore w l s2) ∧
    (∀ (bm vec : List LexResult) (w : SearchWeights) (k : Nat),
      List.Pairwise (fun a b : HybridResult => b.combined_score ≤ a.combined_score)
        (_combine_results bm vec w k)) := by
  refine ⟨?_, ?_, combine_pairwise⟩
  · intro w l l2 s hw hl
    simp only [combinedScore]
    have := mul_lt_mul_of_pos_right hl hw
    linarith
  · intro w l s s2 hw hs
    simp only [combinedScore]
    have := mul_lt_mul_of_pos_right hs hw
    linarith

/-- Witness for C9: both strict monotonicities at weights 1, scores 0 < 1. -/
theorem c9_fusion_monotone_witness :
    combinedScore ⟨1, 1⟩ 0 0 < combinedScore ⟨1, 1⟩ 1 0 ∧
    combinedScore ⟨1, 1⟩ 0 0 < combinedScore ⟨1, 1⟩ 0 1 :=
  ⟨c9_fusion_monotone.1 ⟨1, 1⟩ 0 1 0 (by norm_num) (by norm_num),
   c9_fusion_monotone.2.1 ⟨1, 1⟩ 0 0 1 (by norm_num) (by norm_num)⟩

/-- C2: for duplicate-free input ids, a document only in the lexical results
gets `vector_score = 0`, a document only in the vector results gets
`bm25_score = 0`, and a document in both keeps the lexical score while its
semantic score is the vector result's score. -/
theorem c2_missing_signals_zero (bm vec : List LexResult) (w : SearchWeights) (k : Nat)
    (hbm : (bm.map fun r => r.document_id).Nodup)
    (hvec : (vec.map fun r => r.document_id).Nodup)
    (r : HybridResult) (hr : r ∈ _combine_results bm vec w k) :
    ((∀ v ∈ vec, v.document_id ≠ r.document_id) → r.vector_score = 0) ∧
    ((∀ l ∈ bm, l.document_id ≠ r.document_id) → r.bm25_score = 0) ∧
    (∀ l ∈ bm, l.document_id = r.document_id → r.bm25_score = l.score) ∧
    (∀ v ∈ vec, v.document_id = r.document_id → r.vector_score = v.score) := by
  rcases mem_combine hr with ⟨s, hlook, hdoc, hb, hv, hc, hst⟩
  rw [lookup_docScores] at hlook
  refine ⟨?_, ?_, ?_, ?_⟩
  · intro hnone
    have hfind : vec.find? (fun x => x.document_id == r.document_id) = none := by
      rw [List.find?_eq_none]
      intro x hx
      simpa using hnone x hx
    cases hfb : bm.find? fun x => x.document_id == r.document_id with
    | some l =>
      simp only [hfb, Option.some.injEq] at hlook
      rw [hv, ← hlook]
      exact lastVecScore_no_match hfind 0
    | none =>
      simp only [hfb, hfind] at hlook
      exact Option.noConfusion hlook
  · intro hnone
    have hfind : bm.find? (fun x => x.document_id == r.document_id) = none := by
      rw [List.find?_eq_none]
      intro x hx
      simpa using hnone x hx
    simp only [hfind] at hlook
    cases hfv : vec.find? fun x => x.document_id == r.document_id with
    | some v =>
      simp only [hfv, Option.some.injEq] at hlook
      rw [hb, ← hlook]
    | none =>
      simp only [hfv] at hlook
      exact Option.noConfusion hlook
  · intro l hl hld
    have hfb := find?_eq_some_of_nodup hbm hl hld
    simp only [hfb, Option.some.injEq] at hlook
    rw [hb, ← hlook]
  · intro v hv2 hvd
    have hfv := find?_eq_some_of_nodup hvec hv2 hvd
    cases hfb : bm.find? fun x => x.document_id == r.document_id with
    | some l =>
      simp only [hfb, Option.some.injEq] at hlook
      rw [hv, ← hlook]
      exact lastVecScore_of_nodup hvec hv2 hvd 0
    | none =>
      simp only [hfb, hfv, Option.some.injEq] at hlook
      rw [hv, ← hlook]
      exact lastVecScore_of_nodup hvec hv2 hvd v.score

/-- Witness for C2: one lexical-only and one semantic-only document. -/
theorem c2_missing_signals_zero_witness :
    (⟨"da", "a", 2 * 1 + 0 * 1, 2, 0, "hybrid"⟩ : HybridResult).vector_score = 0 :=
  (c2_missing_signals_zero [⟨"da", "a", 2, "keyword"⟩] [⟨"db", "b", 3, "semantic"⟩]
    ⟨1, 1⟩ 10 (by decide) (by decide) _
    (by norm_num [_combine_results, insertLex, updateVec, hasKey, combinedScore,
      List.insertionSort, List.orderedInsert])).1 (by decide)

/-- C10: every `document_id` occurs at most once in the fused output even with
duplicated input ids; each entry's `bm25_score` and document text come from
the **first** matching lexical result when one exists (else text from the
first matching vector result and `bm25_score = 0`), and its `vector_score` is
the **last** matching vector result's score (0 when none matches). -/
theorem c10_fused_dedup (bm vec : List LexResult) (w : SearchWeights) (k : Nat) :
    ((_combine_results bm vec w k).map fun r => r.document_id).Nodup ∧
    ∀ r ∈ _combine_results bm vec w k,
      r.vector_score = lastVecScore r.document_id vec 0 ∧
      (match bm.find? fun l => l.document_id == r.document_id with
       | some l => r.bm25_score = l.score ∧ r.document = l.document
       | none =>
         match vec.find? fun v => v.document_id == r.document_id with
         | some v => r.bm25_score = 0 ∧ r.document = v.document
         | none => False) := by
  refine ⟨combine_ids_nodup bm vec w k, ?_⟩
  intro r hr
  rcases mem_combine hr with ⟨s, hlook, hdoc, hb, hv, _, _⟩
  rw [lookup_docScores] at hlook
  cases hfb : bm.find? fun l => l.document_id == r.document_id with
  | some l =>
    simp only [hfb, Option.some.injEq] at hlook
    subst hlook
    exact ⟨hv, hb, hdoc⟩
  | none =>
    simp only [hfb] at hlook
    cases hfv : vec.find? fun v => v.document_id == r.document_id with
    | some v =>
      simp only [hfv, Option.some.injEq] at hlook
      subst hlook
      refine ⟨?_, hb, hdoc⟩
      rw [hv]
      exact lastVecScore_irrel hfv v.score 0
    | none =>
      simp only [hfv] at hlook
      exact Option.noConfusion hlook

/-- Witness for C10: duplicated lexical ids keep the first score (2, not 5)
and duplicated vector ids keep the last score (7, not 3). -/
theorem c10_fused_dedup_witness :
    (⟨"vb1", "b", 0 * 1 + 7 * 1, 0, 7, "hybrid"⟩ : HybridResult).vector_score =
      lastVecScore "b" [⟨"vb1", "b", 3, "semantic"⟩, ⟨"vb2", "b", 7, "semantic"⟩] 0 :=
  ((c10_fused_dedup
    [⟨"first", "a", 2, "keyword"⟩, ⟨"second", "a", 5, "keyword"⟩]
    [⟨"vb1", "b", 3, "semantic"⟩, ⟨"vb2", "b", 7, "semantic"⟩] ⟨1, 1⟩ 10).2 _
    (by norm_num [_combine_results, insertLex, updateVec, hasKey, combinedScore,
      List.insertionSort, List.orderedInsert, show ("a" : String) ≠ "b" from by decide,
      show ("b" : String) ≠ "a" from by decide])).1

end HybridSearch
